import Mathlib

/-!
Verification development for the pipeline-builder graph state engine.

The definitions in the `Store` namespace are a shallow embedding of the
Zustand store in `Frontend/src/store.js`: the node/edge collections, the
snapshot-based undo/redo history, the identity allocator and the
connection classifier.  JavaScript arrays become Lean lists, JS objects
used as string-keyed records become association lists, and each store
action becomes a total function from store state to store state.

The `Heap` namespace is a second embedding of the same store that makes
object identity explicit (a heap of node objects addressed by numeric
references), used to settle the copy-on-write claims about
`updateNodeField`, whose JavaScript implementation mutates the matching
node object in place.

The `Backend` namespace models the server-side acyclicity validator
(Kahn's algorithm), whose source is not part of the frontend tree; it is
modelled from the specification text.
-/

namespace Store

/-- A canvas position.  The numeric coordinates play no role in any
property considered here; they are carried as integers. -/
structure Pos where
  x : Int
  y : Int
deriving DecidableEq

/-- A node of the graph, as stored in the `nodes` array of the store:
`{ id, type, position, data }`.  The `data` object is an open
string-keyed record, embedded as an association list (first binding of a
key wins, as constructed by the store all keys are distinct). -/
structure Node where
  id : String
  ntype : String
  position : Pos
  data : List (String × String)
deriving DecidableEq

/-- An edge as produced by `onConnect` via reactflow's `addEdge`:
the connection endpoints and handles, the deterministic id, and the
option fields distinguishing the two classifier branches (`label` is set
exactly on the mismatch branch, `animated` exactly on the compatible
branch).  The remaining style fields of the source (stroke/label colors,
marker) are constant per branch and carry no further information. -/
structure Edge where
  id : String
  source : String
  sourceHandle : Option String
  target : String
  targetHandle : Option String
  etype : String
  label : Option String
  animated : Bool
deriving DecidableEq

/-- A history snapshot `{ nodes, edges }` as pushed by `saveToHistory`. -/
structure Snapshot where
  nodes : List Node
  edges : List Edge
deriving DecidableEq

/-- The store state created by `create((set, get) => ...)`:
`nodes`, `edges`, the per-type id counters `nodeIDs`, the pipeline name,
and the two history stacks. -/
structure StoreState where
  nodes : List Node
  edges : List Edge
  nodeIDs : List (String × Nat)
  pipelineName : String
  past : List Snapshot
  future : List Snapshot
deriving DecidableEq

/-- The initial store state. -/
def emptyState : StoreState :=
  { nodes := [], edges := [], nodeIDs := [],
    pipelineName := "Untitled Pipeline", past := [], future := [] }

/-- Lookup in a string-keyed association list (JS object property read). -/
def lookupA {α : Type} : List (String × α) → String → Option α
  | [], _ => none
  | (k, v) :: rest, key => if k = key then some v else lookupA rest key

/-- Overwrite-or-append in a string-keyed association list: the embedding
of `{ ...obj, [key]: value }` (existing key keeps its slot, new key is
appended). -/
def setA {α : Type} : List (String × α) → String → α → List (String × α)
  | [], key, value => [(key, value)]
  | (k, v) :: rest, key, value =>
    if k = key then (k, value) :: rest else (k, v) :: setA rest key value

/-- The live `{ nodes, edges }` part of a store state. -/
def liveOf (s : StoreState) : Snapshot := ⟨s.nodes, s.edges⟩

/-- `saveToHistory`: push the current live snapshot onto `past` and clear
`future`. -/
def saveToHistory (s : StoreState) : StoreState :=
  { s with past := s.past ++ [liveOf s], future := [] }

/-- `setPipelineName`. -/
def setPipelineName (name : String) (s : StoreState) : StoreState :=
  { s with pipelineName := name }

/-- `getNodeID(type)`: copy the counters, initialize the counter for
`type` to 0 if absent, increment it, store it back, and return the id
string `type ++ "-" ++ counter`.  `natRepr` below is the decimal
rendering of the counter (the JS template `${type}-${newIDs[type]}`). -/
def digitChar (n : Nat) : Char := Char.ofNat (48 + n)

/-- Decimal digits of `n`, most significant first; the fuel argument
bounds the recursion depth (any fuel above the digit count is enough). -/
def natReprAux : Nat → Nat → List Char
  | 0, _ => []
  | fuel + 1, n =>
    if n < 10 then [digitChar n]
    else natReprAux fuel (n / 10) ++ [digitChar (n % 10)]

/-- Decimal rendering of a natural number, the embedding of JS
number-to-string conversion inside a template literal. -/
def natRepr (n : Nat) : String := ⟨natReprAux (n + 1) n⟩

/-- The counter currently stored for `type` (0 when absent). -/
def counterOf (t : String) (s : StoreState) : Nat :=
  (lookupA s.nodeIDs t).getD 0

def getNodeID (t : String) (s : StoreState) : String × StoreState :=
  let c := counterOf t s + 1
  (t ++ "-" ++ natRepr c, { s with nodeIDs := setA s.nodeIDs t c })

/-- Decimal read-back of a digit list (inverse of `natReprAux`), used to
show the decimal rendering is injective. -/
def decVal (cs : List Char) : Nat :=
  cs.foldl (fun a c => a * 10 + (c.toNat - 48)) 0

/-- The ids produced by `k` successive `getNodeID` calls for one type,
together with the final state. -/
def genIDs (t : String) : Nat → StoreState → List String × StoreState
  | 0, s => ([], s)
  | k + 1, s =>
    let r := getNodeID t s
    let rest := genIDs t k r.2
    (r.1 :: rest.1, rest.2)

/-- `addNode(node)`: checkpoint, then append the node. -/
def addNode (node : Node) (s : StoreState) : StoreState :=
  let s1 := saveToHistory s
  { s1 with nodes := s1.nodes ++ [node] }

/-- A node change as consumed by reactflow's `applyNodeChanges`.  The
structural subset is modelled: position updates and removals.  Dimension
and selection changes only touch presentation fields that do not exist in
this model. -/
inductive NodeChange where
  | position (id : String) (pos : Pos)
  | remove (id : String)
deriving DecidableEq

def applyNodeChange (ns : List Node) : NodeChange → List Node
  | .position i p => ns.map (fun nd => if nd.id = i then { nd with position := p } else nd)
  | .remove i => ns.filter (fun nd => !(nd.id == i))

/-- reactflow `applyNodeChanges` (structural subset): apply the changes in
order. -/
def applyNodeChanges (changes : List NodeChange) (ns : List Node) : List Node :=
  changes.foldl applyNodeChange ns

/-- `onNodesChange(changes)`: apply the changes to `nodes`; no history
checkpoint (the code comment chooses not to save). -/
def onNodesChange (changes : List NodeChange) (s : StoreState) : StoreState :=
  { s with nodes := applyNodeChanges changes s.nodes }

/-- `onEdgesChange(changes)`: apply edge changes.  The structural subset
is modelled: removal of the edges with the given ids (selection changes
touch no modelled field). -/
def onEdgesChange (removedIds : List String) (s : StoreState) : StoreState :=
  { s with edges := s.edges.filter (fun e => !(removedIds.contains e.id)) }

/-- A connection proposal `{ source, sourceHandle, target, targetHandle }`
as handed to `onConnect`; handles may be `null`. -/
structure Connection where
  source : String
  sourceHandle : Option String
  target : String
  targetHandle : Option String
deriving DecidableEq

/-- JS `a || b` for an optional string against a string default: `null`,
`undefined` and the empty string are falsy and select the default. -/
def jsOr (a : Option String) (b : String) : String :=
  match a with
  | some s => if s = "" then b else s
  | none => b

/-- The effective port type of a (possibly missing) endpoint node:
`node?.data?.inputType || node?.data?.outputType || 'Text'`. -/
def resolvedType (n : Option Node) : String :=
  match n with
  | none => "Text"
  | some nd => jsOr (lookupA nd.data "inputType") (jsOr (lookupA nd.data "outputType") "Text")

/-- The endpoint resolution as the specification words it: `inputType`
if present, else `outputType` if present, else `"Text"` — presence
meaning the key exists, whatever its value.  This definition follows the
spec text and exists only to be compared with `resolvedType`, which is
the code's truthiness-based resolution. -/
def resolvedTypeSpecWords (n : Option Node) : String :=
  match n with
  | none => "Text"
  | some nd =>
    match lookupA nd.data "inputType" with
    | some s => s
    | none =>
      match lookupA nd.data "outputType" with
      | some s => s
      | none => "Text"

/-- The source endpoint type resolved by `onConnect` against a node list
(`sourceNode = nodes.find(...)`, then the `||` chain). -/
def sourceTypeOf (c : Connection) (ns : List Node) : String :=
  resolvedType (ns.find? (fun nd => nd.id == c.source))

/-- The target endpoint type resolved by `onConnect`. -/
def targetTypeOf (c : Connection) (ns : List Node) : String :=
  resolvedType (ns.find? (fun nd => nd.id == c.target))

/-- A JS-falsy handle value (`null`/`undefined`/empty string). -/
def handleFalsy (h : Option String) : Bool :=
  match h with
  | none => true
  | some s => s == ""

/-- reactflow `connectionExists`: two handle values match when equal or
both falsy. -/
def handleMatches (a b : Option String) : Bool :=
  a == b || (handleFalsy a && handleFalsy b)

/-- reactflow `getEdgeId`: the deterministic id
`reactflow__edge-{source}{sourceHandle || ''}-{target}{targetHandle || ''}`. -/
def edgeIdOf (c : Connection) : String :=
  "reactflow__edge-" ++ c.source ++ c.sourceHandle.getD "" ++ "-" ++ c.target ++ c.targetHandle.getD ""

/-- reactflow `connectionExists edge edges`: some stored edge has the same
source, target and (falsy-insensitive) handles. -/
def connectionExists (e : Edge) (edges : List Edge) : Bool :=
  edges.any (fun el =>
    el.source == e.source && el.target == e.target &&
    handleMatches el.sourceHandle e.sourceHandle &&
    handleMatches el.targetHandle e.targetHandle)

/-- The dedup test expressed on the proposal itself (the stored fields
reactflow compares are exactly those copied from the connection). -/
def connExistsFor (c : Connection) (edges : List Edge) : Bool :=
  edges.any (fun el =>
    el.source == c.source && el.target == c.target &&
    handleMatches el.sourceHandle c.sourceHandle &&
    handleMatches el.targetHandle c.targetHandle)

/-- reactflow `addEdge(edgeParams, edges)`: drop the call when source or
target is falsy, otherwise attach the deterministic id; if an equivalent
connection already exists return the edges unchanged, else append. -/
def addEdgeRF (e : Edge) (edges : List Edge) : List Edge :=
  if e.source = "" || e.target = "" then edges
  else if connectionExists e edges then edges
  else edges ++ [e]

/-- The fixed diagnostic label of the mismatch branch
(`"Data Types don\x27t match"`; `\x27` is the apostrophe). -/
def mismatchLabel : String := "Data Types don\x27t match"

/-- The edge object built by `onConnect` from a proposal, given the
resolved endpoint types: `{ ...connection, ...edgeOptions }` with the id
that `addEdge` derives. -/
def mkEdge (c : Connection) (mismatch : Bool) : Edge :=
  { id := edgeIdOf c,
    source := c.source, sourceHandle := c.sourceHandle,
    target := c.target, targetHandle := c.targetHandle,
    etype := "custom",
    label := if mismatch then some mismatchLabel else none,
    animated := !mismatch }

/-- `onConnect(connection)`: checkpoint, resolve the endpoint types from
the current nodes, classify, and append the edge via `addEdge`. -/
def onConnect (c : Connection) (s : StoreState) : StoreState :=
  let s1 := saveToHistory s
  let mismatch : Bool := !(sourceTypeOf c s1.nodes == targetTypeOf c s1.nodes)
  { s1 with edges := addEdgeRF (mkEdge c mismatch) s1.edges }

/-- `updateNodeField(nodeId, fieldName, fieldValue)`: rewrite `data` on
the matching nodes, no history checkpoint.  This is the value-level view
of the operation; the in-place nature of the JS assignment
`node.data = { ...node.data, [fieldName]: fieldValue }` is modelled in
the `Heap` namespace. -/
def updateNodeField (nodeId fieldName fieldValue : String) (s : StoreState) : StoreState :=
  { s with nodes := s.nodes.map (fun nd =>
      if nd.id = nodeId then { nd with data := setA nd.data fieldName fieldValue } else nd) }

/-- `removeNode(nodeId)`: checkpoint, then drop the node with that id and
every edge touching it. -/
def removeNode (nodeId : String) (s : StoreState) : StoreState :=
  let s1 := saveToHistory s
  { s1 with
    nodes := s1.nodes.filter (fun nd => !(nd.id == nodeId)),
    edges := s1.edges.filter (fun e => !(e.source == nodeId) && !(e.target == nodeId)) }

/-- `undo()`: no-op when `past` is empty; otherwise restore the last past
snapshot and push the current live snapshot onto the front of `future`. -/
def undo (s : StoreState) : StoreState :=
  match s.past.getLast? with
  | none => s
  | some previous =>
    { s with
      past := s.past.dropLast,
      nodes := previous.nodes,
      edges := previous.edges,
      future := liveOf s :: s.future }

/-- `redo()`: no-op when `future` is empty; otherwise restore the first
future snapshot and push the current live snapshot onto `past`. -/
def redo (s : StoreState) : StoreState :=
  match s.future with
  | [] => s
  | next :: rest =>
    { s with
      future := rest,
      nodes := next.nodes,
      edges := next.edges,
      past := s.past ++ [liveOf s] }

/-- `clearCanvas()`: behind a `window.confirm` prompt; when confirmed,
checkpoint and empty both collections, otherwise do nothing. -/
def clearCanvas (confirm : Bool) (s : StoreState) : StoreState :=
  if confirm then
    let s1 := saveToHistory s
    { s1 with nodes := [], edges := [] }
  else s

/-- The structural mutations: the store actions that call `saveToHistory`
before changing the live state.  `clear` stands for a confirmed
`clearCanvas` (an unconfirmed one performs nothing at all). -/
inductive StructOp where
  | addN (node : Node)
  | removeN (nodeId : String)
  | connect (c : Connection)
  | clear
deriving DecidableEq

def applyStructOp (s : StoreState) : StructOp → StoreState
  | .addN node => addNode node s
  | .removeN i => removeNode i s
  | .connect c => onConnect c s
  | .clear => clearCanvas true s

/-- Apply a sequence of structural mutations from left to right. -/
def applyStructOps (ops : List StructOp) (s : StoreState) : StoreState :=
  ops.foldl applyStructOp s

/-- Iterated `undo`. -/
def undoIter : Nat → StoreState → StoreState
  | 0, s => s
  | n + 1, s => undoIter n (undo s)

/-- Every store action other than the id allocator itself, used to state
frame properties (such as: no action but `getNodeID` touches the
counters). -/
inductive EngineOp where
  | addN (node : Node)
  | removeN (nodeId : String)
  | connect (c : Connection)
  | nodesChange (changes : List NodeChange)
  | edgesChange (removedIds : List String)
  | updateF (nodeId fieldName fieldValue : String)
  | undoOp
  | redoOp
  | clearC (confirm : Bool)
  | setName (name : String)

def applyEngineOp (s : StoreState) : EngineOp → StoreState
  | .addN node => addNode node s
  | .removeN i => removeNode i s
  | .connect c => onConnect c s
  | .nodesChange cs => onNodesChange cs s
  | .edgesChange ids => onEdgesChange ids s
  | .updateF i f v => updateNodeField i f v s
  | .undoOp => undo s
  | .redoOp => redo s
  | .clearC b => clearCanvas b s
  | .setName n => setPipelineName n s

/-- Some node in `ns` carries id `i`. -/
def nodeExists (ns : List Node) (i : String) : Bool :=
  ns.any (fun nd => nd.id == i)

/-- Every edge endpoint references an existing node id. -/
def edgesOk (ns : List Node) (es : List Edge) : Bool :=
  es.all (fun e => nodeExists ns e.source && nodeExists ns e.target)

/-- Referential integrity of the complete engine state: the live
collections and every snapshot in either history stack. -/
def stateOk (s : StoreState) : Bool :=
  edgesOk s.nodes s.edges
    && s.past.all (fun sn => edgesOk sn.nodes sn.edges)
    && s.future.all (fun sn => edgesOk sn.nodes sn.edges)

/-- States reachable from the empty store via the engine operations, each
with unrestricted arguments. -/
inductive EngineReachable : StoreState → Prop where
  | init : EngineReachable emptyState
  | step (s : StoreState) (op : EngineOp) :
      EngineReachable s → EngineReachable (applyEngineOp s op)

/-- The restricted step relation under which referential integrity is an
invariant: `onConnect` is only fired with both endpoint ids present, and
`onNodesChange` carries no remove change (node removal goes through
`removeNode`). -/
inductive SafeStep : StoreState → StoreState → Prop where
  | addN (s : StoreState) (node : Node) : SafeStep s (addNode node s)
  | removeN (s : StoreState) (i : String) : SafeStep s (removeNode i s)
  | connect (s : StoreState) (c : Connection)
      (h1 : nodeExists s.nodes c.source = true)
      (h2 : nodeExists s.nodes c.target = true) : SafeStep s (onConnect c s)
  | nodesChange (s : StoreState) (items : List (String × Pos)) :
      SafeStep s (onNodesChange (items.map (fun it => NodeChange.position it.1 it.2)) s)
  | edgesChange (s : StoreState) (ids : List String) : SafeStep s (onEdgesChange ids s)
  | updateF (s : StoreState) (i f v : String) : SafeStep s (updateNodeField i f v s)
  | undoOp (s : StoreState) : SafeStep s (undo s)
  | redoOp (s : StoreState) : SafeStep s (redo s)
  | clearC (s : StoreState) (b : Bool) : SafeStep s (clearCanvas b s)
  | setName (s : StoreState) (n : String) : SafeStep s (setPipelineName n s)

/-- States reachable from the empty store via restricted steps. -/
inductive SafeReachable : StoreState → Prop where
  | init : SafeReachable emptyState
  | step (s t : StoreState) : SafeReachable s → SafeStep s t → SafeReachable t

/-- Agreement on the parts of the state that `undo` reads and that the
snapshot-fidelity properties talk about: live nodes/edges and the past
stack. -/
def histEq (s t : StoreState) : Prop :=
  s.nodes = t.nodes ∧ s.edges = t.edges ∧ s.past = t.past

end Store

namespace Heap

open Store (Edge Snapshot setA lookupA)

/-- A node object on the heap: the part of a node the copy-on-write
claims are about. -/
structure NodeObj where
  id : String
  data : List (String × String)
deriving DecidableEq

/-- The store state with object identity made explicit: `heap` is the
collection of all node objects ever allocated, addressed by their index;
the live node array and each snapshot hold references, so sharing between
the live state and history snapshots is visible. -/
structure HState where
  heap : List NodeObj
  nodes : List Nat
  edges : List Edge
  past : List (List Nat × List Edge)
  future : List (List Nat × List Edge)
deriving DecidableEq

/-- Read a reference (a missing reference yields a dummy object; all
references produced by the operations below are in range). -/
def deref (h : List NodeObj) (r : Nat) : NodeObj :=
  h.getD r ⟨"", []⟩

/-- The node objects a snapshot's reference list points at. -/
def derefAll (h : List NodeObj) (refs : List Nat) : List NodeObj :=
  refs.map (deref h)

def saveToHistoryH (s : HState) : HState :=
  { s with past := s.past ++ [(s.nodes, s.edges)], future := [] }

/-- `addNode` in the heap model: checkpoint, allocate the object, append
its reference to the live list. -/
def addNodeH (obj : NodeObj) (s : HState) : HState :=
  let s1 := saveToHistoryH s
  { s1 with heap := s1.heap ++ [obj], nodes := s1.nodes ++ [s1.heap.length] }

/-- Map a function over a list together with the index of each element. -/
def mapWithIdx {α : Type} (f : Nat → α → α) : Nat → List α → List α
  | _, [] => []
  | i, x :: xs => f i x :: mapWithIdx f (i + 1) xs

/-- `updateNodeField` in the heap model: the JS code maps over the live
array and assigns `node.data = { ...node.data, [fieldName]: fieldValue }`
on each matching node, i.e. it builds a fresh data record but installs it
by mutating the node object itself.  Heap cells referenced from the live
list whose id matches are overwritten in place; the reference lists of
the live state and of every snapshot are untouched. -/
def updateNodeFieldH (nodeId fieldName fieldValue : String) (s : HState) : HState :=
  { s with heap := mapWithIdx (fun r obj =>
      if s.nodes.contains r && obj.id == nodeId then
        { obj with data := setA obj.data fieldName fieldValue }
      else obj) 0 s.heap }

def undoH (s : HState) : HState :=
  match s.past.getLast? with
  | none => s
  | some previous =>
    { s with
      past := s.past.dropLast,
      nodes := previous.1,
      edges := previous.2,
      future := (s.nodes, s.edges) :: s.future }

/-- Iterated field updates (the "n field edits" of the history claims). -/
def updateIterH (edits : List (String × String × String)) (s : HState) : HState :=
  edits.foldl (fun st e => updateNodeFieldH e.1 e.2.1 e.2.2 st) s

end Heap

namespace Backend

/-- Modelled from the spec: the response shape of `POST /pipelines/parse`
(`{num_nodes, num_edges, is_dag}`); the backend source is not part of the
frontend tree. -/
structure ParseResult where
  num_nodes : Nat
  num_edges : Nat
  is_dag : Bool
deriving DecidableEq

/-- Pointwise update of an in-degree table. -/
def updIndeg (ind : String → Int) (k : String) (d : Int) : String → Int :=
  fun v => if v = k then d else ind v

/-- Modelled from the spec: the relaxation part of one Kahn step.  After
dequeuing a node, each of its out-edges decrements the in-degree of its
target (in-degrees are kept per node id, so a target that is not a node
is skipped), and a target whose in-degree reaches exactly 0 is enqueued. -/
def relaxAll (nodes : List String) :
    List (String × String) → (String → Int) → List String → ((String → Int) × List String)
  | [], ind, q => (ind, q)
  | e :: rest, ind, q =>
    if e.2 ∈ nodes then
      let d := ind e.2 - 1
      relaxAll nodes rest (updIndeg ind e.2 d) (if d = 0 then q ++ [e.2] else q)
    else
      relaxAll nodes rest ind q

/-- Modelled from the spec: the Kahn processing loop.  Repeatedly dequeue
a node, count it as processed, and relax its out-edges; the fuel bounds
the number of iterations (each node is enqueued at most once, so
`nodes.length + 1` is always sufficient). -/
def kahnLoop (nodes : List String) (edges : List (String × String)) :
    Nat → (String → Int) → List String → Nat → Nat
  | 0, _, _, count => count
  | _ + 1, _, [], count => count
  | fuel + 1, ind, u :: qs, count =>
    let step := relaxAll nodes (edges.filter (fun e => e.1 == u)) ind qs
    kahnLoop nodes edges fuel step.1 step.2 (count + 1)

/-- Modelled from the spec: the in-degree of `v` built from the edge
list, self-loops included. -/
def baseIndeg (edges : List (String × String)) (v : String) : Int :=
  ((edges.filter (fun e => e.2 == v)).length : Int)

/-- Modelled from the spec: `validate(nodes, edges)`, Kahn's algorithm.
Builds the in-degree table, seeds the queue with the in-degree-0 nodes,
runs the loop, and reports `is_dag` iff every node was processed.  Nodes
are given by their ids, edges by (source, target) pairs. -/
def validate (nodes : List String) (edges : List (String × String)) : ParseResult :=
  let ind := baseIndeg edges
  let q0 := nodes.filter (fun v => ind v == 0)
  let processed := kahnLoop nodes edges (nodes.length + 1) ind q0 0
  ⟨nodes.length, edges.length, processed == nodes.length⟩

/-- The number of edge instances into `v` whose source lies in `S`,
counted per element of `S` (the in-degree decrements attributable to the
processed set `S`, when `S` has no duplicates). -/
def relaxCnt (edges : List (String × String)) : List String → String → Nat
  | [], _ => 0
  | u :: S, v => (edges.filter (fun e => e.1 == u && e.2 == v)).length + relaxCnt edges S v

end Backend

namespace Store

/-! ### History lemmas -/

theorem histEq_refl (s : StoreState) : histEq s s := ⟨rfl, rfl, rfl⟩

theorem histEq_trans {s t u : StoreState} (h1 : histEq s t) (h2 : histEq t u) :
    histEq s u :=
  ⟨h1.1.trans h2.1, h1.2.1.trans h2.2.1, h1.2.2.trans h2.2.2⟩

theorem liveOf_eq_of_histEq {s t : StoreState} (h : histEq s t) : liveOf s = liveOf t := by
  unfold liveOf
  rw [h.1, h.2.1]

/-- Every structural mutation pushes exactly the current live snapshot
onto `past`. -/
theorem applyStructOp_past (s : StoreState) (op : StructOp) :
    (applyStructOp s op).past = s.past ++ [liveOf s] := by
  cases op <;>
    simp [applyStructOp, addNode, removeNode, onConnect, clearCanvas, saveToHistory]

/-- Every structural mutation clears `future`. -/
theorem applyStructOp_future (s : StoreState) (op : StructOp) :
    (applyStructOp s op).future = [] := by
  cases op <;>
    simp [applyStructOp, addNode, removeNode, onConnect, clearCanvas, saveToHistory]

theorem undo_histEq {s t : StoreState} (h : histEq s t) : histEq (undo s) (undo t) := by
  obtain ⟨hn, he, hp⟩ := h
  unfold undo
  rw [hp]
  cases t.past.getLast? with
  | none => exact ⟨hn, he, hp⟩
  | some prev => exact ⟨rfl, rfl, rfl⟩

/-- Undoing right after a structural mutation recovers the former live
state and past stack. -/
theorem undo_applyStructOp (s : StoreState) (op : StructOp) :
    histEq (undo (applyStructOp s op)) s := by
  unfold undo
  rw [applyStructOp_past, List.getLast?_concat]
  exact ⟨rfl, rfl, by simp⟩

theorem undoIter_histEq {s t : StoreState} (n : Nat) (h : histEq s t) :
    histEq (undoIter n s) (undoIter n t) := by
  induction n generalizing s t with
  | zero => exact h
  | succ n ih => exact ih (undo_histEq h)

theorem undoIter_succ_outer (n : Nat) (s : StoreState) :
    undoIter (n + 1) s = undo (undoIter n s) := by
  induction n generalizing s with
  | zero => rfl
  | succ n ih =>
    show undoIter (n + 1) (undo s) = undo (undoIter (n + 1) s)
    rw [ih (undo s)]
    rfl

theorem applyStructOps_concat (ops : List StructOp) (op : StructOp) (s : StoreState) :
    applyStructOps (ops ++ [op]) s = applyStructOp (applyStructOps ops s) op := by
  unfold applyStructOps
  rw [List.foldl_append]
  rfl

/-- As many undos as there were structural mutations recover the live
state and past stack from before the first of them. -/
theorem undoIter_applyStructOps (ops : List StructOp) (s : StoreState) :
    histEq (undoIter ops.length (applyStructOps ops s)) s := by
  induction ops generalizing s with
  | nil => exact histEq_refl s
  | cons op rest ih =>
    have hstep : applyStructOps (op :: rest) s = applyStructOps rest (applyStructOp s op) := rfl
    rw [hstep]
    show histEq (undoIter (rest.length + 1) (applyStructOps rest (applyStructOp s op))) s
    rw [undoIter_succ_outer]
    have h1 : histEq (undoIter rest.length (applyStructOps rest (applyStructOp s op)))
        (applyStructOp s op) := ih (applyStructOp s op)
    have h2 := undo_histEq h1
    exact histEq_trans h2 (undo_applyStructOp s op)

/-- C1: after any sequence of structural mutations (addNode, removeNode,
onConnect, confirmed clearCanvas) from any starting state, one `undo`
restores the live nodes/edges to the state immediately before the last
mutation, and as many `undo` calls as mutations restore the live state
from before the first of them. -/
theorem c1_undo_snapshot_fidelity (s : StoreState) (ops : List StructOp) (op : StructOp) :
    liveOf (undo (applyStructOps (ops ++ [op]) s)) = liveOf (applyStructOps ops s) ∧
    liveOf (undoIter (ops ++ [op]).length (applyStructOps (ops ++ [op]) s)) = liveOf s := by
  constructor
  · rw [applyStructOps_concat]
    exact liveOf_eq_of_histEq (undo_applyStructOp (applyStructOps ops s) op)
  · exact liveOf_eq_of_histEq (undoIter_applyStructOps (ops ++ [op]) s)

/-- C3: every structural mutation clears the redo stack, so a `redo`
issued immediately after it is a no-op. -/
theorem c3_mutation_clears_future (s : StoreState) (op : StructOp) :
    (applyStructOp s op).future = [] ∧ redo (applyStructOp s op) = applyStructOp s op := by
  refine ⟨applyStructOp_future s op, ?_⟩
  have h := applyStructOp_future s op
  unfold redo
  rw [h]

/-- C4: whenever `past` is non-empty (so `undo` is not a no-op), `undo`
followed immediately by `redo` restores the live nodes/edges state. -/
theorem c4_redo_undo_identity (s : StoreState) (h : s.past ≠ []) :
    liveOf (redo (undo s)) = liveOf s := by
  rcases List.eq_nil_or_concat s.past with hnil | ⟨ps, prev, hps⟩
  · exact absurd hnil h
  · rw [List.concat_eq_append] at hps
    unfold undo
    rw [hps, List.getLast?_concat]
    unfold redo liveOf
    simp

/-- Witness for C4 at a concrete state: one `addNode` on the empty store
leaves a non-empty past, and undo-then-redo restores the live state. -/
theorem c4_redo_undo_identity_witness :
    liveOf (redo (undo (addNode ⟨"n1", "custom", ⟨0, 0⟩, []⟩ emptyState))) =
      liveOf (addNode ⟨"n1", "custom", ⟨0, 0⟩, []⟩ emptyState) :=
  c4_redo_undo_identity (addNode ⟨"n1", "custom", ⟨0, 0⟩, []⟩ emptyState) (by decide)

/-! ### Benign no-ops (C2) -/

/-- C2 counterexample: `removeNode` on an id absent from the (empty) node
list does not leave the engine state unchanged — it still appends a
snapshot to `past`.  The claim that every benign no-op case leaves the
entire state (nodes, edges, past, future) unchanged is therefore false. -/
theorem c2_counterexample :
    (∀ nd ∈ emptyState.nodes, nd.id ≠ "x") ∧ removeNode "x" emptyState ≠ emptyState := by
  decide

theorem connectionExists_mkEdge (c : Connection) (m : Bool) (es : List Edge) :
    connectionExists (mkEdge c m) es = connExistsFor c es := rfl

/-- C2 amended: `undo` on an empty past and `redo` on an empty future
leave the state fully unchanged; `removeNode` on an id that no node
carries and no edge touches, and `onConnect` for a proposal whose
connection (hence whose deterministic id) already exists, leave the live
nodes and edges unchanged but still behave as a bare `saveToHistory`
(they append the current live snapshot to `past` and clear `future`).
All four cases are total functions and never raise. -/
theorem c2_benign_noops (s : StoreState) (i : String) (c : Connection) :
    (s.past = [] → undo s = s) ∧
    (s.future = [] → redo s = s) ∧
    ((∀ nd ∈ s.nodes, nd.id ≠ i) → (∀ e ∈ s.edges, e.source ≠ i ∧ e.target ≠ i) →
      removeNode i s = saveToHistory s) ∧
    (connExistsFor c s.edges = true → onConnect c s = saveToHistory s) := by
  refine ⟨?_, ?_, ?_, ?_⟩
  · intro h
    unfold undo
    rw [h]
    rfl
  · intro h
    unfold redo
    rw [h]
  · intro h1 h2
    have hn : s.nodes.filter (fun nd => !(nd.id == i)) = s.nodes :=
      List.filter_eq_self.mpr (fun nd hmem => by simp [h1 nd hmem])
    have he : s.edges.filter (fun e => !(e.source == i) && !(e.target == i)) = s.edges :=
      List.filter_eq_self.mpr (fun e hmem => by simp [(h2 e hmem).1, (h2 e hmem).2])
    show ({ saveToHistory s with
        nodes := (saveToHistory s).nodes.filter (fun nd => !(nd.id == i)),
        edges := (saveToHistory s).edges.filter
          (fun e => !(e.source == i) && !(e.target == i)) } : StoreState) = saveToHistory s
    have hn' : (saveToHistory s).nodes = s.nodes := rfl
    have he' : (saveToHistory s).edges = s.edges := rfl
    rw [hn', he', hn, he]
    rfl
  · intro h
    show ({ saveToHistory s with
        edges := addEdgeRF (mkEdge c (!(sourceTypeOf c (saveToHistory s).nodes ==
          targetTypeOf c (saveToHistory s).nodes))) (saveToHistory s).edges } : StoreState) =
      saveToHistory s
    have hee : (saveToHistory s).edges = s.edges := rfl
    unfold addEdgeRF
    rw [connectionExists_mkEdge, hee, h]
    by_cases hsrc : c.source = "" <;> by_cases htgt : c.target = "" <;>
      simp [mkEdge, hsrc, htgt] <;> rfl

/-- Witness for C2 amended at concrete states: the empty store for the
undo/redo cases, an absent id on the empty store for `removeNode`, and a
duplicate proposal against a store already holding that edge. -/
theorem c2_benign_noops_witness :
    undo emptyState = emptyState ∧
    redo emptyState = emptyState ∧
    removeNode "x" emptyState = saveToHistory emptyState ∧
    onConnect ⟨"a", none, "b", none⟩
        { emptyState with edges := [mkEdge ⟨"a", none, "b", none⟩ false] } =
      saveToHistory { emptyState with edges := [mkEdge ⟨"a", none, "b", none⟩ false] } :=
  ⟨(c2_benign_noops emptyState "x" ⟨"a", none, "b", none⟩).1 rfl,
   (c2_benign_noops emptyState "x" ⟨"a", none, "b", none⟩).2.1 rfl,
   (c2_benign_noops emptyState "x" ⟨"a", none, "b", none⟩).2.2.1 (by decide) (by decide),
   (c2_benign_noops { emptyState with edges := [mkEdge ⟨"a", none, "b", none⟩ false] }
      "x" ⟨"a", none, "b", none⟩).2.2.2 (by decide)⟩

/-! ### removeNode frame property (C5) -/

/-- C5: for a node id present in the graph, `removeNode` removes exactly
the nodes carrying that id and exactly the edges whose source or target
equals it, keeping every other node and edge in order (the surviving
lists are sublists of the originals). -/
theorem c5_removeNode_frame (s : StoreState) (i : String)
    (h : ∃ nd ∈ s.nodes, nd.id = i) :
    (∀ nd : Node, nd ∈ (removeNode i s).nodes ↔ nd ∈ s.nodes ∧ nd.id ≠ i) ∧
    (removeNode i s).nodes.Sublist s.nodes ∧
    (∀ e : Edge, e ∈ (removeNode i s).edges ↔ e ∈ s.edges ∧ e.source ≠ i ∧ e.target ≠ i) ∧
    (removeNode i s).edges.Sublist s.edges := by
  have hn : (removeNode i s).nodes = s.nodes.filter (fun nd => !(nd.id == i)) := rfl
  have he : (removeNode i s).edges =
      s.edges.filter (fun e => !(e.source == i) && !(e.target == i)) := rfl
  refine ⟨fun nd => ?_, ?_, fun e => ?_, ?_⟩
  · rw [hn, List.mem_filter]
    simp
  · rw [hn]
    exact List.filter_sublist s.nodes
  · rw [he, List.mem_filter]
    simp [and_assoc]
  · rw [he]
    exact List.filter_sublist s.edges

/-- Witness for C5 on a concrete two-node graph with two edges, one of
which touches the removed node. -/
theorem c5_removeNode_frame_witness :
    ((⟨"b", "t", ⟨0, 0⟩, []⟩ : Node) ∈
        (removeNode "a" { emptyState with
          nodes := [⟨"a", "t", ⟨0, 0⟩, []⟩, ⟨"b", "t", ⟨0, 0⟩, []⟩],
          edges := [mkEdge ⟨"a", none, "b", none⟩ false,
                    mkEdge ⟨"b", none, "b", none⟩ false] }).nodes ↔
      (⟨"b", "t", ⟨0, 0⟩, []⟩ : Node) ∈
        ({ emptyState with
          nodes := [⟨"a", "t", ⟨0, 0⟩, []⟩, ⟨"b", "t", ⟨0, 0⟩, []⟩],
          edges := [mkEdge ⟨"a", none, "b", none⟩ false,
                    mkEdge ⟨"b", none, "b", none⟩ false] } : StoreState).nodes ∧
        (Node.mk "b" "t" ⟨0, 0⟩ []).id ≠ "a") ∧
    (removeNode "a" { emptyState with
        nodes := [⟨"a", "t", ⟨0, 0⟩, []⟩, ⟨"b", "t", ⟨0, 0⟩, []⟩],
        edges := [mkEdge ⟨"a", none, "b", none⟩ false,
                  mkEdge ⟨"b", none, "b", none⟩ false] }).nodes.Sublist
      [⟨"a", "t", ⟨0, 0⟩, []⟩, ⟨"b", "t", ⟨0, 0⟩, []⟩] :=
  ⟨(c5_removeNode_frame _ "a" ⟨⟨"a", "t", ⟨0, 0⟩, []⟩, by decide, rfl⟩).1 _,
   (c5_removeNode_frame _ "a" ⟨⟨"a", "t", ⟨0, 0⟩, []⟩, by decide, rfl⟩).2.1⟩

/-! ### Connection classification (C6) -/

/-- C6 counterexample: resolution is by JS truthiness, not by presence.
A source node whose `data.inputType` is the (present but empty) string
resolves to `"Text"` in the code, so connecting it to a `"Text"` input
produces a compatible, unlabelled, animated edge, while the claim's
presence-based resolution (`resolvedTypeSpecWords`) yields `""` versus
`"Text"` and predicts an incompatible edge. -/
theorem c6_counterexample :
    resolvedTypeSpecWords
        (([⟨"a", "custom", ⟨0, 0⟩, [("inputType", "")]⟩,
           ⟨"b", "custom", ⟨0, 0⟩, [("inputType", "Text")]⟩] : List Node).find?
          (fun nd => nd.id == "a")) ≠
      resolvedTypeSpecWords
        (([⟨"a", "custom", ⟨0, 0⟩, [("inputType", "")]⟩,
           ⟨"b", "custom", ⟨0, 0⟩, [("inputType", "Text")]⟩] : List Node).find?
          (fun nd => nd.id == "b")) ∧
    (onConnect ⟨"a", none, "b", none⟩
        { emptyState with
          nodes := [⟨"a", "custom", ⟨0, 0⟩, [("inputType", "")]⟩,
                    ⟨"b", "custom", ⟨0, 0⟩, [("inputType", "Text")]⟩] }).edges =
      [mkEdge ⟨"a", none, "b", none⟩ false] ∧
    (mkEdge ⟨"a", none, "b", none⟩ false).label = none ∧
    (mkEdge ⟨"a", none, "b", none⟩ false).animated = true := by
  decide

/-- C6 amended: with truthiness-based resolution (`inputType` if present
and non-empty, else `outputType` if present and non-empty, else
`"Text"`), a proposal with non-empty endpoint ids and no already-existing
equivalent connection always appends exactly one edge, labelled with the
fixed diagnostic string iff the resolved types differ (case-sensitive
string equality), and animated iff they agree. -/
theorem c6_classification (s : StoreState) (c : Connection)
    (hs : ¬ c.source = "") (ht : ¬ c.target = "")
    (hnew : connExistsFor c s.edges = false) :
    (onConnect c s).edges =
      s.edges ++ [mkEdge c (!(sourceTypeOf c s.nodes == targetTypeOf c s.nodes))] ∧
    ((mkEdge c (!(sourceTypeOf c s.nodes == targetTypeOf c s.nodes))).label =
        some mismatchLabel ↔ sourceTypeOf c s.nodes ≠ targetTypeOf c s.nodes) ∧
    ((mkEdge c (!(sourceTypeOf c s.nodes == targetTypeOf c s.nodes))).animated = true ↔
      sourceTypeOf c s.nodes = targetTypeOf c s.nodes) := by
  refine ⟨?_, ?_, ?_⟩
  · show addEdgeRF (mkEdge c (!(sourceTypeOf c (saveToHistory s).nodes ==
        targetTypeOf c (saveToHistory s).nodes))) (saveToHistory s).edges = _
    have hnn : (saveToHistory s).nodes = s.nodes := rfl
    have hee : (saveToHistory s).edges = s.edges := rfl
    rw [hnn, hee]
    unfold addEdgeRF
    rw [connectionExists_mkEdge, hnew]
    simp [mkEdge, hs, ht]
  · by_cases hEq : sourceTypeOf c s.nodes = targetTypeOf c s.nodes <;>
      simp [mkEdge, hEq]
  · by_cases hEq : sourceTypeOf c s.nodes = targetTypeOf c s.nodes <;>
      simp [mkEdge, hEq]

/-- Witness for C6 amended: a `Text`-output to `File`-input proposal on a
concrete two-node store appends one labelled, non-animated edge. -/
theorem c6_classification_witness :
    (onConnect ⟨"a", none, "b", none⟩
        { emptyState with
          nodes := [⟨"a", "custom", ⟨0, 0⟩, [("outputType", "Text")]⟩,
                    ⟨"b", "custom", ⟨0, 0⟩, [("inputType", "File")]⟩] }).edges =
      [] ++ [mkEdge ⟨"a", none, "b", none⟩
        (!(sourceTypeOf ⟨"a", none, "b", none⟩
            [⟨"a", "custom", ⟨0, 0⟩, [("outputType", "Text")]⟩,
             ⟨"b", "custom", ⟨0, 0⟩, [("inputType", "File")]⟩] ==
          targetTypeOf ⟨"a", none, "b", none⟩
            [⟨"a", "custom", ⟨0, 0⟩, [("outputType", "Text")]⟩,
             ⟨"b", "custom", ⟨0, 0⟩, [("inputType", "File")]⟩]))] :=
  (c6_classification
    { emptyState with
      nodes := [⟨"a", "custom", ⟨0, 0⟩, [("outputType", "Text")]⟩,
                ⟨"b", "custom", ⟨0, 0⟩, [("inputType", "File")]⟩] }
    ⟨"a", none, "b", none⟩ (by decide) (by decide) (by decide)).1

end Store

namespace Heap

open Store (setA lookupA)

/-! ### Heap-model lemmas and the updateNodeField claims (C7) -/

theorem mapWithIdx_length {α : Type} (f : Nat → α → α) (k : Nat) (l : List α) :
    (mapWithIdx f k l).length = l.length := by
  induction l generalizing k with
  | nil => rfl
  | cons x xs ih =>
    show (f k x :: mapWithIdx f (k + 1) xs).length = xs.length + 1
    rw [List.length_cons, ih (k + 1)]

theorem mapWithIdx_getD {α : Type} (f : Nat → α → α) (l : List α) (k r : Nat) (d : α)
    (h : r < l.length) :
    (mapWithIdx f k l).getD r d = f (k + r) (l.getD r d) := by
  induction l generalizing k r with
  | nil => exact absurd h (by simp)
  | cons x xs ih =>
    cases r with
    | zero => rfl
    | succ r =>
      show (mapWithIdx f (k + 1) xs).getD r d = f (k + (r + 1)) (xs.getD r d)
      rw [ih (k + 1) r (by exact Nat.lt_of_succ_lt_succ h)]
      congr 1
      omega

theorem lookupA_setA_self {α : Type} (m : List (String × α)) (k : String) (v : α) :
    lookupA (setA m k v) k = some v := by
  induction m with
  | nil => simp [setA, lookupA]
  | cons kv rest ih =>
    by_cases h : kv.1 = k <;> simp [setA, lookupA, h, ih]

theorem lookupA_setA_other {α : Type} (m : List (String × α)) (k g : String) (v : α)
    (h : g ≠ k) :
    lookupA (setA m k v) g = lookupA m g := by
  induction m with
  | nil => simp [setA, lookupA, Ne.symm h]
  | cons kv rest ih =>
    by_cases h1 : kv.1 = k
    · simp [setA, lookupA, h1, Ne.symm h]
    · by_cases h2 : kv.1 = g
      · simp [setA, lookupA, h1, h2, h]
      · simp [setA, lookupA, h1, h2, ih]

theorem updateIterH_nodes (edits : List (String × String × String)) (s : HState) :
    (updateIterH edits s).nodes = s.nodes ∧
    (updateIterH edits s).edges = s.edges ∧
    (updateIterH edits s).past = s.past ∧
    (updateIterH edits s).future = s.future := by
  induction edits generalizing s with
  | nil => exact ⟨rfl, rfl, rfl, rfl⟩
  | cons e rest ih =>
    have h := ih (updateNodeFieldH e.1 e.2.1 e.2.2 s)
    exact h

theorem undoH_heap (s : HState) : (undoH s).heap = s.heap := by
  unfold undoH
  cases s.past.getLast? <;> rfl

/-- C7 counterexample: `updateNodeField` does not leave prior references
valid in the copy-on-write sense, and does not leave the history stacks
untouched in substance.  On a one-node heap whose only past snapshot
shares the node reference with the live list, updating a field changes
the node object seen through the previously held reference, and with it
the dereferenced content of the past snapshot (the reference list itself
is unchanged, so the mutation is in place). -/
theorem c7_counterexample :
    Heap.deref (Heap.updateNodeFieldH "a" "f" "v"
        ⟨[⟨"a", []⟩], [0], [], [([0], [])], []⟩).heap 0 ≠
      Heap.deref ([⟨"a", []⟩] : List Heap.NodeObj) 0 ∧
    (Heap.updateNodeFieldH "a" "f" "v"
        ⟨[⟨"a", []⟩], [0], [], [([0], [])], []⟩).past = [([0], [])] ∧
    Heap.derefAll (Heap.updateNodeFieldH "a" "f" "v"
        ⟨[⟨"a", []⟩], [0], [], [([0], [])], []⟩).heap [0] ≠
      Heap.derefAll [⟨"a", []⟩] [0] := by
  decide

/-- C7 amended: `updateNodeField(nodeId, f, v)` leaves the live reference
list, the edges and the structure of both history stacks unchanged and
appends no snapshot; on the heap it rewrites exactly the live node
objects whose id matches, replacing `data[f]` by `v` and no other key —
but it installs the fresh data record by overwriting the node object in
place at its existing reference, so prior holders of that reference
(including the snapshots in `past`/`future`) observe the new value.
Consequently field edits survive an `undo`: a structural `addNode`
followed by any number of field edits and one `undo` restores the
pre-`addNode` reference list and past stack while keeping the edited
heap. -/
theorem c7_updateNodeField_in_place (s : HState) (i f v : String) :
    (updateNodeFieldH i f v s).nodes = s.nodes ∧
    (updateNodeFieldH i f v s).edges = s.edges ∧
    (updateNodeFieldH i f v s).past = s.past ∧
    (updateNodeFieldH i f v s).future = s.future ∧
    (∀ r, r < s.heap.length →
      (r ∈ s.nodes → (deref s.heap r).id = i →
        deref (updateNodeFieldH i f v s).heap r =
          { deref s.heap r with data := setA (deref s.heap r).data f v }) ∧
      (¬ (r ∈ s.nodes ∧ (deref s.heap r).id = i) →
        deref (updateNodeFieldH i f v s).heap r = deref s.heap r)) ∧
    (∀ d : List (String × String),
      lookupA (setA d f v) f = some v ∧
      ∀ g, g ≠ f → lookupA (setA d f v) g = lookupA d g) ∧
    (∀ (obj : NodeObj) (edits : List (String × String × String)),
      (undoH (updateIterH edits (addNodeH obj s))).nodes = s.nodes ∧
      (undoH (updateIterH edits (addNodeH obj s))).past = s.past ∧
      (undoH (updateIterH edits (addNodeH obj s))).heap =
        (updateIterH edits (addNodeH obj s)).heap) := by
  refine ⟨rfl, rfl, rfl, rfl, ?_, ?_, ?_⟩
  · intro r hr
    have hmap : deref (updateNodeFieldH i f v s).heap r =
        (fun r obj => if s.nodes.contains r && obj.id == i then
            { obj with data := setA obj.data f v }
          else obj) (0 + r) (deref s.heap r) := by
      unfold updateNodeFieldH deref
      exact mapWithIdx_getD _ s.heap 0 r ⟨"", []⟩ hr
    constructor
    · intro hmem hid
      rw [hmap]
      simp only [Nat.zero_add]
      have hc : (s.nodes.contains r && (deref s.heap r).id == i) = true := by
        simp [hid, hmem]
      rw [hc]
      simp
    · intro hneg
      rw [hmap]
      simp only [Nat.zero_add]
      have hc : (s.nodes.contains r && (deref s.heap r).id == i) = false := by
        rcases not_and_or.mp hneg with hm | hm <;> simp [hm]
      rw [hc]
      simp
  · intro d
    exact ⟨lookupA_setA_self d f v, fun g hg => lookupA_setA_other d f g v hg⟩
  · intro obj edits
    have hfr := updateIterH_nodes edits (addNodeH obj s)
    have hpast : (updateIterH edits (addNodeH obj s)).past =
        s.past ++ [(s.nodes, s.edges)] := hfr.2.2.1
    have hheap := undoH_heap (updateIterH edits (addNodeH obj s))
    refine ⟨?_, ?_, hheap⟩
    · unfold undoH
      rw [hpast, List.getLast?_concat]
    · unfold undoH
      rw [hpast, List.getLast?_concat]
      simp

/-- Witness for C7 amended on the concrete one-node heap: the history
structure is preserved and the live matching object receives the fresh
data record at its old reference. -/
theorem c7_updateNodeField_in_place_witness :
    (updateNodeFieldH "a" "f" "v"
        (⟨[⟨"a", []⟩], [0], [], [([0], [])], []⟩ : HState)).past =
      (⟨[⟨"a", []⟩], [0], [], [([0], [])], []⟩ : HState).past ∧
    deref (updateNodeFieldH "a" "f" "v"
        (⟨[⟨"a", []⟩], [0], [], [([0], [])], []⟩ : HState)).heap 0 =
      { deref (⟨[⟨"a", []⟩], [0], [], [([0], [])], []⟩ : HState).heap 0 with
        data := setA (deref (⟨[⟨"a", []⟩], [0], [], [([0], [])], []⟩ : HState).heap 0).data
          "f" "v" } :=
  ⟨(c7_updateNodeField_in_place ⟨[⟨"a", []⟩], [0], [], [([0], [])], []⟩ "a" "f" "v").2.2.1,
   ((c7_updateNodeField_in_place ⟨[⟨"a", []⟩], [0], [], [([0], [])], []⟩
      "a" "f" "v").2.2.2.2.1 0 (by decide)).1 (by decide) (by decide)⟩

end Heap

namespace Store

/-! ### Referential integrity (C8) -/

theorem nodeExists_iff (ns : List Node) (i : String) :
    nodeExists ns i = true ↔ ∃ nd ∈ ns, nd.id = i := by
  simp [nodeExists]

theorem edgesOk_iff (ns : List Node) (es : List Edge) :
    edgesOk ns es = true ↔
      ∀ e ∈ es, nodeExists ns e.source = true ∧ nodeExists ns e.target = true := by
  simp [edgesOk]

theorem stateOk_iff (s : StoreState) :
    stateOk s = true ↔
      edgesOk s.nodes s.edges = true ∧
      (∀ sn ∈ s.past, edgesOk sn.nodes sn.edges = true) ∧
      (∀ sn ∈ s.future, edgesOk sn.nodes sn.edges = true) := by
  simp [stateOk, and_assoc]

theorem nodeExists_append (ns ms : List Node) (i : String)
    (h : nodeExists ns i = true) : nodeExists (ns ++ ms) i = true := by
  rw [nodeExists_iff] at h ⊢
  obtain ⟨nd, hm, hid⟩ := h
  exact ⟨nd, List.mem_append_left ms hm, hid⟩

theorem edgesOk_append_nodes (ns ms : List Node) (es : List Edge)
    (h : edgesOk ns es = true) : edgesOk (ns ++ ms) es = true := by
  rw [edgesOk_iff] at h ⊢
  intro e he
  exact ⟨nodeExists_append ns ms e.source (h e he).1,
         nodeExists_append ns ms e.target (h e he).2⟩

theorem edgesOk_filter_edges (ns : List Node) (es : List Edge) (q : Edge → Bool)
    (h : edgesOk ns es = true) : edgesOk ns (es.filter q) = true := by
  rw [edgesOk_iff] at h ⊢
  intro e he
  exact h e (List.mem_filter.mp he).1

theorem edgesOk_removeNode (ns : List Node) (es : List Edge) (i : String)
    (h : edgesOk ns es = true) :
    edgesOk (ns.filter (fun nd => !(nd.id == i)))
      (es.filter (fun e => !(e.source == i) && !(e.target == i))) = true := by
  rw [edgesOk_iff] at h ⊢
  intro e he
  obtain ⟨hmem, hcond⟩ := List.mem_filter.mp he
  have hs : e.source ≠ i := by
    intro hh
    simp [hh] at hcond
  have ht : e.target ≠ i := by
    intro hh
    simp [hh] at hcond
  obtain ⟨h1, h2⟩ := h e hmem
  constructor
  · rw [nodeExists_iff] at h1 ⊢
    obtain ⟨nd, hm, hid⟩ := h1
    refine ⟨nd, List.mem_filter.mpr ⟨hm, ?_⟩, hid⟩
    simp [hid, hs]
  · rw [nodeExists_iff] at h2 ⊢
    obtain ⟨nd, hm, hid⟩ := h2
    refine ⟨nd, List.mem_filter.mpr ⟨hm, ?_⟩, hid⟩
    simp [hid, ht]

theorem edgesOk_addEdgeRF (ns : List Node) (es : List Edge) (e : Edge)
    (hok : edgesOk ns es = true) (hs : nodeExists ns e.source = true)
    (ht : nodeExists ns e.target = true) : edgesOk ns (addEdgeRF e es) = true := by
  unfold addEdgeRF
  split
  · exact hok
  · split
    · exact hok
    · rw [edgesOk_iff] at hok ⊢
      intro x hx
      rcases List.mem_append.mp hx with h | h
      · exact hok x h
      · rw [List.mem_singleton.mp h]
        exact ⟨hs, ht⟩

/-- A node-list transformation that rewrites each node without changing
its id leaves `nodeExists` untouched. -/
theorem nodeExists_map_id_preserving (ns : List Node) (g : Node → Node)
    (hg : ∀ nd, (g nd).id = nd.id) (i : String) :
    nodeExists (ns.map g) i = nodeExists ns i := by
  unfold nodeExists
  rw [List.any_map]
  congr 1
  funext nd
  simp [Function.comp, hg nd]

theorem edgesOk_map_id_preserving (ns : List Node) (es : List Edge) (g : Node → Node)
    (hg : ∀ nd, (g nd).id = nd.id) (h : edgesOk ns es = true) :
    edgesOk (ns.map g) es = true := by
  rw [edgesOk_iff] at h ⊢
  intro e he
  rw [nodeExists_map_id_preserving ns g hg, nodeExists_map_id_preserving ns g hg]
  exact h e he

theorem applyPosChanges_nodeExists (items : List (String × Pos)) (ns : List Node)
    (i : String) :
    nodeExists (applyNodeChanges (items.map (fun it => NodeChange.position it.1 it.2)) ns) i =
      nodeExists ns i := by
  induction items generalizing ns with
  | nil => rfl
  | cons it rest ih =>
    show nodeExists (applyNodeChanges (rest.map fun it => NodeChange.position it.1 it.2)
        (applyNodeChange ns (NodeChange.position it.1 it.2))) i = nodeExists ns i
    rw [ih (applyNodeChange ns (NodeChange.position it.1 it.2))]
    show nodeExists (ns.map fun nd =>
        if nd.id = it.1 then { nd with position := it.2 } else nd) i = nodeExists ns i
    apply nodeExists_map_id_preserving
    intro nd
    by_cases h : nd.id = it.1 <;> simp [h]

/-- Restricted steps preserve referential integrity of the live state and
of every snapshot in the history stacks. -/
theorem safeStep_stateOk {s t : StoreState} (hok : stateOk s = true)
    (hstep : SafeStep s t) : stateOk t = true := by
  obtain ⟨hlive, hpast, hfuture⟩ := (stateOk_iff s).mp hok
  cases hstep with
  | addN node =>
    rw [stateOk_iff]
    refine ⟨edgesOk_append_nodes s.nodes [node] s.edges hlive, ?_, ?_⟩
    · intro sn hsn
      rcases List.mem_append.mp hsn with h | h
      · exact hpast sn h
      · rw [List.mem_singleton.mp h]
        exact hlive
    · intro sn hsn
      exact absurd hsn (List.not_mem_nil sn)
  | removeN i =>
    rw [stateOk_iff]
    refine ⟨edgesOk_removeNode s.nodes s.edges i hlive, ?_, ?_⟩
    · intro sn hsn
      rcases List.mem_append.mp hsn with h | h
      · exact hpast sn h
      · rw [List.mem_singleton.mp h]
        exact hlive
    · intro sn hsn
      exact absurd hsn (List.not_mem_nil sn)
  | connect c h1 h2 =>
    rw [stateOk_iff]
    refine ⟨?_, ?_, ?_⟩
    · exact edgesOk_addEdgeRF s.nodes s.edges _ hlive h1 h2
    · intro sn hsn
      rcases List.mem_append.mp hsn with h | h
      · exact hpast sn h
      · rw [List.mem_singleton.mp h]
        exact hlive
    · intro sn hsn
      exact absurd hsn (List.not_mem_nil sn)
  | nodesChange items =>
    rw [stateOk_iff]
    refine ⟨?_, hpast, hfuture⟩
    show edgesOk (applyNodeChanges (items.map fun it => NodeChange.position it.1 it.2) s.nodes)
      s.edges = true
    rw [edgesOk_iff] at hlive ⊢
    intro e he
    rw [applyPosChanges_nodeExists, applyPosChanges_nodeExists]
    exact hlive e he
  | edgesChange ids =>
    rw [stateOk_iff]
    exact ⟨edgesOk_filter_edges s.nodes s.edges _ hlive, hpast, hfuture⟩
  | updateF i f v =>
    rw [stateOk_iff]
    refine ⟨?_, hpast, hfuture⟩
    apply edgesOk_map_id_preserving s.nodes s.edges _ _ hlive
    intro nd
    by_cases h : nd.id = i <;> simp [h]
  | undoOp =>
    unfold undo
    cases hlast : s.past.getLast? with
    | none => exact hok
    | some prev =>
      rw [stateOk_iff]
      have hprevmem : prev ∈ s.past := by
        have h1 : s.past ≠ [] := by
          intro hh
          rw [hh] at hlast
          exact absurd hlast (by simp)
        have := List.getLast?_eq_getLast s.past h1
        rw [this] at hlast
        have h2 : prev = s.past.getLast h1 := by
          injection hlast.symm
        rw [h2]
        exact List.getLast_mem h1
      refine ⟨hpast prev hprevmem, ?_, ?_⟩
      · intro sn hsn
        exact hpast sn (List.dropLast_sublist s.past |>.mem hsn)
      · intro sn hsn
        rcases List.mem_cons.mp hsn with h | h
        · rw [h]
          exact hlive
        · exact hfuture sn h
  | redoOp =>
    unfold redo
    cases hfut : s.future with
    | nil => exact hok
    | cons next rest =>
      rw [stateOk_iff]
      have hnextmem : next ∈ s.future := by
        rw [hfut]
        exact List.mem_cons_self next rest
      refine ⟨hfuture next hnextmem, ?_, ?_⟩
      · intro sn hsn
        rcases List.mem_append.mp hsn with h | h
        · exact hpast sn h
        · rw [List.mem_singleton.mp h]
          exact hlive
      · intro sn hsn
        apply hfuture
        rw [hfut]
        exact List.mem_cons_of_mem next hsn
  | clearC b =>
    unfold clearCanvas
    cases b with
    | false => exact hok
    | true =>
      rw [if_pos rfl, stateOk_iff]
      refine ⟨by simp [edgesOk], ?_, ?_⟩
      · intro sn hsn
        rcases List.mem_append.mp hsn with h | h
        · exact hpast sn h
        · rw [List.mem_singleton.mp h]
          exact hlive
      · intro sn hsn
        exact absurd hsn (List.not_mem_nil sn)
  | setName n => exact hok

/-- C8 counterexample: `onConnect` with endpoint ids that no node carries
is an engine operation, reachable in one step from the empty store, and
it records an edge whose source and target reference no existing node.
The claimed invariant therefore fails over the engine's operations as
listed. -/
theorem c8_counterexample :
    EngineReachable (onConnect ⟨"a", none, "b", none⟩ emptyState) ∧
    edgesOk (onConnect ⟨"a", none, "b", none⟩ emptyState).nodes
      (onConnect ⟨"a", none, "b", none⟩ emptyState).edges = false :=
  ⟨EngineReachable.step emptyState (.connect ⟨"a", none, "b", none⟩) EngineReachable.init,
   by decide⟩

/-- C8 amended: in every state reachable from the empty store via the
engine operations restricted so that `onConnect` is only fired with both
endpoint ids present and `onNodesChange` carries only position changes
(node removal going through `removeNode`), every edge's source and target
reference an existing node id — in the live state and in every history
snapshot; in particular `removeNode` removes a node and all edges
touching it within the same operation. -/
theorem c8_referential_integrity (s : StoreState) (h : SafeReachable s) :
    stateOk s = true := by
  induction h with
  | init => decide
  | step s t _ hstep ih => exact safeStep_stateOk ih hstep

/-- Witness for C8 amended: one restricted `addNode` step from the empty
store yields a state satisfying the integrity predicate. -/
theorem c8_referential_integrity_witness :
    stateOk (addNode ⟨"n1", "custom", ⟨0, 0⟩, []⟩ emptyState) = true :=
  c8_referential_integrity (addNode ⟨"n1", "custom", ⟨0, 0⟩, []⟩ emptyState)
    (SafeReachable.step emptyState (addNode ⟨"n1", "custom", ⟨0, 0⟩, []⟩ emptyState)
      SafeReachable.init (SafeStep.addN emptyState ⟨"n1", "custom", ⟨0, 0⟩, []⟩))

/-! ### Identity allocator (C9) -/

theorem digitChar_val (m : Nat) (h : m < 10) : (digitChar m).toNat - 48 = m := by
  interval_cases m <;> decide

theorem decVal_concat (l : List Char) (c : Char) :
    decVal (l ++ [c]) = decVal l * 10 + (c.toNat - 48) := by
  unfold decVal
  rw [List.foldl_append]
  rfl

theorem decVal_natReprAux (fuel n : Nat) (h : n < fuel) :
    decVal (natReprAux fuel n) = n := by
  induction fuel generalizing n with
  | zero => omega
  | succ fuel ih =>
    show decVal (if n < 10 then [digitChar n]
      else natReprAux fuel (n / 10) ++ [digitChar (n % 10)]) = n
    by_cases h10 : n < 10
    · rw [if_pos h10]
      show 0 * 10 + ((digitChar n).toNat - 48) = n
      rw [digitChar_val n h10]
      omega
    · rw [if_neg h10]
      rw [decVal_concat]
      have hdiv : n / 10 < fuel := by
        have h1 : n / 10 < n := Nat.div_lt_self (by omega) (by omega)
        omega
      rw [ih (n / 10) hdiv, digitChar_val (n % 10) (Nat.mod_lt n (by omega))]
      omega

theorem string_data_append (a b : String) : (a ++ b).data = a.data ++ b.data := by
  cases a
  cases b
  rfl

/-- The id string determines the counter: `t ++ "-" ++ natRepr` is
injective in the counter. -/
theorem idString_inj (t : String) {m n : Nat}
    (h : t ++ "-" ++ natRepr m = t ++ "-" ++ natRepr n) : m = n := by
  have h1 : decVal (natReprAux (m + 1) m) = m := decVal_natReprAux _ _ (Nat.lt_succ_self m)
  have h2 : decVal (natReprAux (n + 1) n) = n := decVal_natReprAux _ _ (Nat.lt_succ_self n)
  have hd := congrArg String.data h
  rw [string_data_append, string_data_append] at hd
  have hcancel : (natRepr m).data = (natRepr n).data := List.append_cancel_left hd
  have haux : natReprAux (m + 1) m = natReprAux (n + 1) n := hcancel
  rw [haux] at h1
  exact h1.symm.trans h2

theorem counterOf_getNodeID (t : String) (s : StoreState) :
    counterOf t (getNodeID t s).2 = counterOf t s + 1 := by
  show (lookupA (setA s.nodeIDs t (counterOf t s + 1)) t).getD 0 = counterOf t s + 1
  rw [Heap.lookupA_setA_self]
  rfl

theorem genIDs_len (t : String) (k : Nat) (s : StoreState) :
    (genIDs t k s).1.length = k := by
  induction k generalizing s with
  | zero => rfl
  | succ k ih =>
    show ((getNodeID t s).1 :: (genIDs t k (getNodeID t s).2).1).length = k + 1
    rw [List.length_cons, ih]

theorem genIDs_counter (t : String) (k : Nat) (s : StoreState) :
    counterOf t (genIDs t k s).2 = counterOf t s + k := by
  induction k generalizing s with
  | zero => rfl
  | succ k ih =>
    show counterOf t (genIDs t k (getNodeID t s).2).2 = counterOf t s + (k + 1)
    rw [ih, counterOf_getNodeID]
    omega

theorem genIDs_getD (t : String) (k : Nat) (s : StoreState) (j : Nat) (hj : j < k) :
    (genIDs t k s).1.getD j "" = t ++ "-" ++ natRepr (counterOf t s + j + 1) := by
  induction k generalizing s j with
  | zero => omega
  | succ k ih =>
    cases j with
    | zero => rfl
    | succ j =>
      show (genIDs t k (getNodeID t s).2).1.getD j "" = _
      rw [ih (getNodeID t s).2 j (by omega), counterOf_getNodeID]
      congr 2
      omega

theorem genIDs_mem (t : String) (k : Nat) (s : StoreState) (x : String)
    (hx : x ∈ (genIDs t k s).1) :
    ∃ j, j < k ∧ x = t ++ "-" ++ natRepr (counterOf t s + j + 1) := by
  induction k generalizing s with
  | zero => exact absurd hx (List.not_mem_nil x)
  | succ k ih =>
    rcases List.mem_cons.mp hx with h | h
    · exact ⟨0, by omega, h⟩
    · obtain ⟨j, hj, hval⟩ := ih (getNodeID t s).2 h
      rw [counterOf_getNodeID] at hval
      refine ⟨j + 1, by omega, ?_⟩
      rw [hval]
      congr 2
      omega

theorem genIDs_nodup (t : String) (k : Nat) (s : StoreState) :
    (genIDs t k s).1.Nodup := by
  induction k generalizing s with
  | zero => exact List.nodup_nil
  | succ k ih =>
    refine List.nodup_cons.mpr ⟨?_, ih (getNodeID t s).2⟩
    intro hmem
    obtain ⟨j, hj, hval⟩ := genIDs_mem t k (getNodeID t s).2 _ hmem
    rw [counterOf_getNodeID] at hval
    have := idString_inj t hval
    omega

theorem applyEngineOp_nodeIDs (s : StoreState) (op : EngineOp) :
    (applyEngineOp s op).nodeIDs = s.nodeIDs := by
  cases op with
  | undoOp =>
    show (undo s).nodeIDs = s.nodeIDs
    unfold undo
    cases s.past.getLast? <;> rfl
  | redoOp =>
    show (redo s).nodeIDs = s.nodeIDs
    unfold redo
    cases s.future <;> rfl
  | clearC b =>
    show (clearCanvas b s).nodeIDs = s.nodeIDs
    unfold clearCanvas
    cases b <;> rfl
  | _ => rfl

/-- C9: successive `getNodeID` calls for one type return
`t-(c+1), t-(c+2), ...` in order (so `t-1, t-2, t-3, ...` from a fresh
counter), the per-type counter advances by exactly the number of calls
and is touched by no other engine operation (including `removeNode`), and
the issued id strings are pairwise distinct — no id is ever returned
twice for a type. -/
theorem c9_identity_allocator (s : StoreState) (t : String) (k : Nat) :
    (genIDs t k s).1.length = k ∧
    (∀ j, j < k → (genIDs t k s).1.getD j "" = t ++ "-" ++ natRepr (counterOf t s + j + 1)) ∧
    counterOf t (genIDs t k s).2 = counterOf t s + k ∧
    (genIDs t k s).1.Nodup ∧
    (∀ op : EngineOp, (applyEngineOp s op).nodeIDs = s.nodeIDs) :=
  ⟨genIDs_len t k s, fun j hj => genIDs_getD t k s j hj, genIDs_counter t k s,
   genIDs_nodup t k s, fun op => applyEngineOp_nodeIDs s op⟩

/-- Counting with a disjunction of pointwise-disjoint predicates splits
into a sum. -/
theorem countP_or_split {α : Type} (l : List α) (p q : α → Bool)
    (h : ∀ x ∈ l, ¬(p x = true ∧ q x = true)) :
    l.countP (fun x => p x || q x) = l.countP p + l.countP q := by
  induction l with
  | nil => rfl
  | cons x xs ih =>
    have hx := h x (List.mem_cons_self x xs)
    rw [List.countP_cons, List.countP_cons, List.countP_cons,
      ih (fun y hy => h y (List.mem_cons_of_mem x hy))]
    cases hp : p x <;> cases hq : q x <;> simp [hp, hq] at hx ⊢ <;> omega

/-- A strict count inequality from a pointwise implication together with
one witness satisfying the larger predicate only. -/
theorem countP_lt_of_witness {α : Type} (l : List α) (p q : α → Bool)
    (himp : ∀ x ∈ l, p x = true → q x = true) (x0 : α) (hx0 : x0 ∈ l)
    (hq0 : q x0 = true) (hp0 : p x0 = false) : l.countP p < l.countP q := by
  induction l with
  | nil => exact absurd hx0 (List.not_mem_nil x0)
  | cons y ys ih =>
    rw [List.countP_cons, List.countP_cons]
    have hmono : ys.countP p ≤ ys.countP q :=
      List.countP_mono_left (fun x hx => himp x (List.mem_cons_of_mem y hx))
    rcases List.mem_cons.mp hx0 with h | h
    · rw [← h, hp0, hq0]
      simp
      omega
    · have hlt := ih (fun x hx => himp x (List.mem_cons_of_mem y hx)) h
      have hyimp := himp y (List.mem_cons_self y ys)
      cases hpy : p y
      · simp
        omega
      · rw [hyimp hpy]
        simp
        omega

end Store

namespace Backend

/-! ### The acyclicity validator: a self-loop is never a DAG (C10) -/

theorem relaxCnt_eq_countP (edges : List (String × String)) (S : List String)
    (v : String) (hnd : S.Nodup) :
    relaxCnt edges S v = edges.countP (fun e => S.contains e.1 && e.2 == v) := by
  induction S with
  | nil =>
    show 0 = edges.countP _
    rw [List.countP_congr (q := fun _ => false) (fun e _ => by simp)]
    simp
  | cons u S ih =>
    obtain ⟨hu, hS⟩ := List.nodup_cons.mp hnd
    have hsplit : edges.countP (fun e => (u :: S).contains e.1 && e.2 == v) =
        edges.countP (fun e => e.1 == u && e.2 == v) +
        edges.countP (fun e => S.contains e.1 && e.2 == v) := by
      have hcongr : edges.countP (fun e => (u :: S).contains e.1 && e.2 == v) =
          edges.countP (fun e => (e.1 == u && e.2 == v) || (S.contains e.1 && e.2 == v)) := by
        apply List.countP_congr
        intro e _
        rw [List.contains_cons]
        cases h1 : (e.1 == u) <;> cases h2 : S.contains e.1 <;> cases h3 : (e.2 == v) <;>
          simp [h1, h2, h3]
      rw [hcongr]
      apply Store.countP_or_split
      intro e _ hcontra
      obtain ⟨h1, h2⟩ := hcontra
      have h3 : e.1 = u := by
        have := Bool.and_elim_left h1
        exact eq_of_beq this
      have h4 : e.1 ∈ S := by
        have := Bool.and_elim_left h2
        simpa using this
      rw [h3] at h4
      exact hu h4
    show (edges.filter (fun e => e.1 == u && e.2 == v)).length + relaxCnt edges S v =
      edges.countP (fun e => (u :: S).contains e.1 && e.2 == v)
    rw [← List.countP_eq_length_filter, ih hS, hsplit]

/-- With `(a, a)` an edge and `a` not yet processed, the decrements
attributable to the processed set never exhaust the in-degree of `a`. -/
theorem relaxCnt_lt_base (edges : List (String × String)) (a : String)
    (S : List String) (hnd : S.Nodup) (hna : a ∉ S) (hE : (a, a) ∈ edges) :
    relaxCnt edges S a < (edges.filter (fun e => e.2 == a)).length := by
  rw [relaxCnt_eq_countP edges S a hnd, ← List.countP_eq_length_filter]
  exact Store.countP_lt_of_witness edges _ _
    (fun x _ hx => Bool.and_elim_right hx) (a, a) hE (by simp) (by simp [hna])

theorem relaxAll_le (nodes : List String) (es : List (String × String))
    (ind : String → Int) (q : List String) (w : String) :
    (relaxAll nodes es ind q).1 w ≤ ind w := by
  induction es generalizing ind q with
  | nil => exact le_refl _
  | cons e rest ih =>
    show (if e.2 ∈ nodes then _ else _ : (String → Int) × List String).1 w ≤ ind w
    by_cases hm : e.2 ∈ nodes
    · rw [if_pos hm]
      refine le_trans (ih _ _) ?_
      unfold updIndeg
      by_cases hw : w = e.2 <;> simp [hw]
    · rw [if_neg hm]
      exact ih _ _

theorem relaxAll_val (nodes : List String) (es : List (String × String))
    (ind : String → Int) (q : List String) (v : String) (hv : v ∈ nodes) :
    (relaxAll nodes es ind q).1 v = ind v - (es.countP (fun e => e.2 == v) : Int) := by
  induction es generalizing ind q with
  | nil => simp [relaxAll]
  | cons e rest ih =>
    rw [List.countP_cons]
    show (if e.2 ∈ nodes then _ else _ : (String → Int) × List String).1 v = _
    by_cases hm : e.2 ∈ nodes
    · rw [if_pos hm, ih _ _]
      unfold updIndeg
      by_cases he : e.2 = v
      · subst he
        simp
        omega
      · have hne : ¬ (v = e.2) := fun hh => he hh.symm
        simp only [if_neg hne]
        simp [he]
    · rw [if_neg hm]
      have he : ¬ (e.2 = v) := fun hh => hm (hh ▸ hv)
      rw [ih _ _]
      simp [he]

theorem relaxAll_queue (nodes : List String) (es : List (String × String))
    (ind : String → Int) (q : List String)
    (hq : ∀ w ∈ q, ind w ≤ 0) (hnd : q.Nodup) :
    (relaxAll nodes es ind q).2.Nodup ∧
    (∀ w ∈ (relaxAll nodes es ind q).2, (relaxAll nodes es ind q).1 w ≤ 0) ∧
    (∀ w ∈ (relaxAll nodes es ind q).2, w ∈ q ∨ (w ∈ nodes ∧ 1 ≤ ind w)) := by
  induction es generalizing ind q with
  | nil => exact ⟨hnd, hq, fun w hw => Or.inl hw⟩
  | cons e rest ih =>
    show (relaxAll nodes (e :: rest) ind q).2.Nodup ∧ _ ∧ _
    by_cases hm : e.2 ∈ nodes
    · have hred : relaxAll nodes (e :: rest) ind q =
          relaxAll nodes rest (updIndeg ind e.2 (ind e.2 - 1))
            (if ind e.2 - 1 = 0 then q ++ [e.2] else q) := by
        show (if e.2 ∈ nodes then _ else _) = _
        rw [if_pos hm]
      rw [hred]
      by_cases hd : ind e.2 - 1 = 0
      · rw [if_pos hd]
        have he2 : e.2 ∉ q := by
          intro hmem
          have := hq e.2 hmem
          omega
        have hnd' : (q ++ [e.2]).Nodup := by
          simp [List.nodup_append, hnd, he2]
        have hq' : ∀ w ∈ q ++ [e.2], updIndeg ind e.2 (ind e.2 - 1) w ≤ 0 := by
          intro w hw
          unfold updIndeg
          by_cases hwe : w = e.2
          · rw [if_pos hwe]
            omega
          · rw [if_neg hwe]
            rcases List.mem_append.mp hw with h | h
            · exact hq w h
            · exact absurd (List.mem_singleton.mp h) hwe
        obtain ⟨n1, n2, n3⟩ := ih _ _ hq' hnd'
        refine ⟨n1, n2, ?_⟩
        intro w hw
        rcases n3 w hw with h | h
        · rcases List.mem_append.mp h with h' | h'
          · exact Or.inl h'
          · rw [List.mem_singleton.mp h']
            exact Or.inr ⟨hm, by omega⟩
        · obtain ⟨hwn, hwv⟩ := h
          by_cases hwe : w = e.2
          · rw [hwe] at hwv ⊢
            unfold updIndeg at hwv
            rw [if_pos rfl] at hwv
            omega
          · unfold updIndeg at hwv
            rw [if_neg hwe] at hwv
            exact Or.inr ⟨hwn, hwv⟩
      · rw [if_neg hd]
        have hq' : ∀ w ∈ q, updIndeg ind e.2 (ind e.2 - 1) w ≤ 0 := by
          intro w hw
          unfold updIndeg
          by_cases hwe : w = e.2
          · rw [if_pos hwe]
            have := hq w hw
            rw [hwe] at this
            omega
          · rw [if_neg hwe]
            exact hq w hw
        obtain ⟨n1, n2, n3⟩ := ih _ _ hq' hnd
        refine ⟨n1, n2, ?_⟩
        intro w hw
        rcases n3 w hw with h | h
        · exact Or.inl h
        · obtain ⟨hwn, hwv⟩ := h
          by_cases hwe : w = e.2
          · rw [hwe] at hwv ⊢
            unfold updIndeg at hwv
            rw [if_pos rfl] at hwv
            exact Or.inr ⟨hm, by omega⟩
          · unfold updIndeg at hwv
            rw [if_neg hwe] at hwv
            exact Or.inr ⟨hwn, hwv⟩
    · have hred : relaxAll nodes (e :: rest) ind q = relaxAll nodes rest ind q := by
        show (if e.2 ∈ nodes then _ else _) = _
        rw [if_neg hm]
      rw [hred]
      exact ih _ _ hq hnd

theorem relaxAll_avoid (nodes : List String) (a : String) (hmemA : a ∈ nodes)
    (es : List (String × String))
    (ind : String → Int) (q : List String) (hnq : a ∉ q)
    (hbound : (es.countP (fun e => e.2 == a) : Int) + 1 ≤ ind a) :
    a ∉ (relaxAll nodes es ind q).2 ∧ 1 ≤ (relaxAll nodes es ind q).1 a := by
  induction es generalizing ind q with
  | nil =>
    simp only [List.countP_nil] at hbound
    refine ⟨hnq, ?_⟩
    show (1 : Int) ≤ ind a
    omega
  | cons e rest ih =>
    rw [List.countP_cons] at hbound
    by_cases hm : e.2 ∈ nodes
    · have hred : relaxAll nodes (e :: rest) ind q =
          relaxAll nodes rest (updIndeg ind e.2 (ind e.2 - 1))
            (if ind e.2 - 1 = 0 then q ++ [e.2] else q) := by
        show (if e.2 ∈ nodes then _ else _) = _
        rw [if_pos hm]
      rw [hred]
      by_cases he : e.2 = a
      · have hcnt : (if (e.2 == a) = true then 1 else 0) = 1 := by simp [he]
        rw [hcnt] at hbound
        have hd : ¬ (ind e.2 - 1 = 0) := by
          rw [he]
          omega
        rw [if_neg hd]
        apply ih _ _ hnq
        unfold updIndeg
        rw [he, if_pos rfl]
        push_cast at hbound ⊢
        omega
      · have hcnt : (if (e.2 == a) = true then 1 else 0) = 0 := by simp [he]
        rw [hcnt] at hbound
        have hind : updIndeg ind e.2 (ind e.2 - 1) a = ind a := by
          unfold updIndeg
          rw [if_neg (fun hh => he hh.symm)]
        have hnq' : a ∉ (if ind e.2 - 1 = 0 then q ++ [e.2] else q) := by
          by_cases hd : ind e.2 - 1 = 0
          · rw [if_pos hd]
            intro hmem
            rcases List.mem_append.mp hmem with h | h
            · exact hnq h
            · exact he (List.mem_singleton.mp h).symm
          · rw [if_neg hd]
            exact hnq
        apply ih _ _ hnq'
        rw [hind]
        omega
    · have hred : relaxAll nodes (e :: rest) ind q = relaxAll nodes rest ind q := by
        show (if e.2 ∈ nodes then _ else _) = _
        rw [if_neg hm]
      rw [hred]
      have he : ¬ (e.2 = a) := fun hh => hm (hh ▸ hmemA)
      have hcnt : (if (e.2 == a) = true then 1 else 0) = 0 := by simp [he]
      rw [hcnt] at hbound
      apply ih _ _ hnq
      omega

end Backend

namespace Store

/-- Witness for C9: three calls for type `llm` on the fresh store; the
third id is `llm-3`, the counter ends at 3 and the ids are distinct. -/
theorem c9_identity_allocator_witness :
    (genIDs "llm" 3 emptyState).1.length = 3 ∧
    (genIDs "llm" 3 emptyState).1.getD 2 "" =
      "llm" ++ "-" ++ natRepr (counterOf "llm" emptyState + 2 + 1) ∧
    counterOf "llm" (genIDs "llm" 3 emptyState).2 = counterOf "llm" emptyState + 3 ∧
    (genIDs "llm" 3 emptyState).1.Nodup ∧
    (applyEngineOp emptyState (EngineOp.removeN "llm-2")).nodeIDs = emptyState.nodeIDs :=
  ⟨(c9_identity_allocator emptyState "llm" 3).1,
   (c9_identity_allocator emptyState "llm" 3).2.1 2 (by decide),
   (c9_identity_allocator emptyState "llm" 3).2.2.1,
   (c9_identity_allocator emptyState "llm" 3).2.2.2.1,
   (c9_identity_allocator emptyState "llm" 3).2.2.2.2 (EngineOp.removeN "llm-2")⟩

end Store

namespace Backend

/-- A duplicate-free subset of the node list missing at least one node is
strictly shorter than the node list. -/
theorem length_lt_of_missing (nodes S : List String) (a : String)
    (hnd : S.Nodup) (hsub : ∀ w ∈ S, w ∈ nodes) (ha : a ∈ nodes) (hna : a ∉ S) :
    S.length < nodes.length := by
  have h1 : S.toFinset.card = S.length := List.toFinset_card_of_nodup hnd
  have h2 : S.toFinset ⊆ nodes.toFinset := by
    intro x hx
    exact List.mem_toFinset.mpr (hsub x (List.mem_toFinset.mp hx))
  have h3 : S.toFinset ⊂ nodes.toFinset :=
    (Finset.ssubset_iff_of_subset h2).mpr
      ⟨a, List.mem_toFinset.mpr ha, fun hx => hna (List.mem_toFinset.mp hx)⟩
  have h4 := Finset.card_lt_card h3
  have h5 : nodes.toFinset.card ≤ nodes.length := nodes.toFinset_card_le
  omega

/-- The Kahn loop invariant: with a self-loop on `a` and `a` outside the
processed set and the queue, the loop can never process every node. -/
theorem kahnLoop_lt (nodes : List String) (edges : List (String × String)) (a : String)
    (ha : a ∈ nodes) (hE : (a, a) ∈ edges) :
    ∀ (fuel : Nat) (ind : String → Int) (q S : List String),
    (∀ v ∈ nodes, ind v = baseIndeg edges v - (relaxCnt edges S v : Int)) →
    (S ++ q).Nodup →
    (∀ w ∈ S, w ∈ nodes) →
    (∀ w ∈ q, w ∈ nodes) →
    (∀ w, w ∈ S ∨ w ∈ q → ind w ≤ 0) →
    a ∉ S → a ∉ q →
    kahnLoop nodes edges fuel ind q S.length < nodes.length := by
  intro fuel
  induction fuel with
  | zero =>
    intro ind q S _ hnd hSn _ _ haS _
    exact length_lt_of_missing nodes S a ((List.nodup_append.mp hnd).1) hSn ha haS
  | succ fuel ih =>
    intro ind q S hacc hnd hSn hqn hle haS haq
    cases q with
    | nil =>
      show S.length < nodes.length
      exact length_lt_of_missing nodes S a ((List.nodup_append.mp hnd).1) hSn ha haS
    | cons u qs =>
      obtain ⟨hndS, hndq, hdisj⟩ := List.nodup_append.mp hnd
      obtain ⟨hu_qs, hndqs⟩ := List.nodup_cons.mp hndq
      have hu_nodes : u ∈ nodes := hqn u (List.mem_cons_self u qs)
      have hu_S : u ∉ S := fun hmem => hdisj hmem (List.mem_cons_self u qs)
      have ha_u : a ≠ u := fun hh => haq (hh ▸ List.mem_cons_self u qs)
      have ha_qs : a ∉ qs := fun hmem => haq (List.mem_cons_of_mem u hmem)
      have hq_le : ∀ w ∈ qs, ind w ≤ 0 :=
        fun w hw => hle w (Or.inr (List.mem_cons_of_mem u hw))
      set es := edges.filter (fun e => e.1 == u) with hes
      have hcnt_es : ∀ v, es.countP (fun e => e.2 == v) =
          edges.countP (fun e => e.1 == u && e.2 == v) := by
        intro v
        rw [hes, List.countP_filter]
        apply List.countP_congr
        intro e _
        cases h1 : (e.2 == v) <;> cases h2 : (e.1 == u) <;> simp [h1, h2]
      obtain ⟨rq_nodup, rq_le, rq_mem⟩ := relaxAll_queue nodes es ind qs hq_le hndqs
      have hstep : kahnLoop nodes edges (fuel + 1) ind (u :: qs) S.length =
          kahnLoop nodes edges fuel (relaxAll nodes es ind qs).1
            (relaxAll nodes es ind qs).2 (S.length + 1) := rfl
      rw [hstep]
      have hlen : S.length + 1 = (u :: S).length := rfl
      rw [hlen]
      apply ih (relaxAll nodes es ind qs).1 (relaxAll nodes es ind qs).2 (u :: S)
      · intro v hv
        rw [relaxAll_val nodes es ind qs v hv, hacc v hv, hcnt_es v]
        show _ = baseIndeg edges v -
          ((edges.filter (fun e => e.1 == u && e.2 == v)).length + relaxCnt edges S v : Nat)
        rw [← List.countP_eq_length_filter]
        push_cast
        omega
      · rw [List.nodup_append]
        refine ⟨List.nodup_cons.mpr ⟨hu_S, hndS⟩, rq_nodup, ?_⟩
        intro w hw hw2
        rcases rq_mem w hw2 with h | h
        · rcases List.mem_cons.mp hw with h' | h'
          · exact hu_qs (h' ▸ h)
          · exact hdisj h' (List.mem_cons_of_mem u h)
        · have hneg : ind w ≤ 0 := by
            rcases List.mem_cons.mp hw with h' | h'
            · exact h' ▸ hle u (Or.inr (List.mem_cons_self u qs))
            · exact hle w (Or.inl h')
          omega
      · intro w hw
        rcases List.mem_cons.mp hw with h | h
        · exact h ▸ hu_nodes
        · exact hSn w h
      · intro w hw
        rcases rq_mem w hw with h | h
        · exact hqn w (List.mem_cons_of_mem u h)
        · exact h.1
      · intro w hw
        rcases hw with h | h
        · refine le_trans (relaxAll_le nodes es ind qs w) ?_
          rcases List.mem_cons.mp h with h' | h'
          · exact h' ▸ hle u (Or.inr (List.mem_cons_self u qs))
          · exact hle w (Or.inl h')
        · exact rq_le w h
      · intro hmem
        rcases List.mem_cons.mp hmem with h | h
        · exact ha_u h
        · exact haS h
      · have hbound : (es.countP (fun e => e.2 == a) : Int) + 1 ≤ ind a := by
          rw [hcnt_es a, hacc a ha]
          have hgb := relaxCnt_lt_base edges a (u :: S)
            (List.nodup_cons.mpr ⟨hu_S, hndS⟩)
            (fun hmem => by
              rcases List.mem_cons.mp hmem with h | h
              · exact ha_u h
              · exact haS h) hE
          have hrc : relaxCnt edges (u :: S) a =
              (edges.filter (fun e => e.1 == u && e.2 == a)).length + relaxCnt edges S a :=
            rfl
          rw [hrc] at hgb
          show (edges.countP (fun e => e.1 == u && e.2 == a) : Int) + 1 ≤
            baseIndeg edges a - (relaxCnt edges S a : Int)
          unfold baseIndeg
          rw [List.countP_eq_length_filter]
          omega
        exact (relaxAll_avoid nodes a ha es ind qs ha_qs hbound).1

/-- C10: modelled from the spec, Kahn's algorithm as run by `validate`
reports `is_dag = false` for every graph that contains a self-loop
`(a, a)` on one of its nodes: the self-loop keeps the in-degree of `a`
at 1 or more, so `a` is never enqueued and the processed count stays
strictly below the node count. -/
theorem c10_self_loop_not_dag (nodes : List String) (edges : List (String × String))
    (a : String) (hndn : nodes.Nodup) (ha : a ∈ nodes) (hE : (a, a) ∈ edges) :
    (validate nodes edges).is_dag = false := by
  show (kahnLoop nodes edges (nodes.length + 1) (baseIndeg edges)
      (nodes.filter (fun v => baseIndeg edges v == 0)) 0 == nodes.length) = false
  have hbase_a : 1 ≤ baseIndeg edges a := by
    unfold baseIndeg
    have hmem : (a, a) ∈ edges.filter (fun e => e.2 == a) := by
      rw [List.mem_filter]
      exact ⟨hE, by simp⟩
    have := List.length_pos.mpr (List.ne_nil_of_mem hmem)
    omega
  have hlt : kahnLoop nodes edges (nodes.length + 1) (baseIndeg edges)
      (nodes.filter (fun v => baseIndeg edges v == 0)) 0 < nodes.length := by
    have h0 : (0 : Nat) = ([] : List String).length := rfl
    rw [h0]
    apply kahnLoop_lt nodes edges a ha hE
    · intro v _
      show baseIndeg edges v = baseIndeg edges v - ((0 : Nat) : Int)
      simp
    · show ([] ++ nodes.filter (fun v => baseIndeg edges v == 0)).Nodup
      rw [List.nil_append]
      exact hndn.filter _
    · intro w hw
      exact absurd hw (List.not_mem_nil w)
    · intro w hw
      exact (List.mem_filter.mp hw).1
    · intro w hw
      rcases hw with h | h
      · exact absurd h (List.not_mem_nil w)
      · have := (List.mem_filter.mp h).2
        have heq : baseIndeg edges w = 0 := by
          have := eq_of_beq this
          exact this
        omega
    · exact List.not_mem_nil a
    · intro hmem
      have := (List.mem_filter.mp hmem).2
      have heq : baseIndeg edges a = 0 := eq_of_beq this
      omega
  rw [beq_eq_false_iff_ne]
  exact Nat.ne_of_lt hlt

/-- Witness for C10: the one-node graph `A` with the single self-loop
`A -> A` is reported not to be a DAG. -/
theorem c10_self_loop_not_dag_witness :
    (validate ["A"] [("A", "A")]).is_dag = false :=
  c10_self_loop_not_dag ["A"] [("A", "A")] "A" (by decide) (by decide) (by decide)

end Backend
